import Mathlib

/-!
# A shallow embedding of the St_CenterNet network-construction code

This file models, over exact rational arithmetic, the pure computational
content of the repository's network-construction code:

* `_make_divisible` (nets/MobileNetv2.py and nets/MobileNext.py),
* `fill_up_weights` (bilinear-style deconvolution kernel fill),
* `load_model` (positional state-dictionary remapping),
* the residual-connection logic of `InvertResidual` / `SandGlass`,
* the `MobileNetv2` stage construction (feature ids and channel lists),
* the detection-head bias initialization of `CenterNet` and `PoseResNet`,
* the spatial-size arithmetic of the convolution / transposed-convolution
  layers used by both decoders.

Python floats are modelled as rationals; Python `int()` truncation and `//`
floor division are modelled explicitly.
-/

namespace StCenterNet

/-- Python `int(q)`: truncation toward zero. -/
def pyInt (q : ℚ) : ℤ :=
  if q < 0 then -⌊-q⌋ else ⌊q⌋

/-- Python `a // b` on integers: floor division. -/
def pyFloorDiv (a b : ℤ) : ℤ := Int.fdiv a b

/-- `_make_divisible(v, divisor, min_value)` from nets/MobileNetv2.py lines
23-39 (identical in nets/MobileNext.py lines 15-32):
`min_value = divisor` when `None`;
`new_v = max(min_value, int(v + divisor / 2) // divisor * divisor)`;
`if new_v < 0.9 * v: new_v += divisor`. -/
def _make_divisible (v : ℚ) (divisor : ℤ) (min_value : Option ℤ) : ℤ :=
  let minV := min_value.getD divisor
  let new_v := max minV (pyFloorDiv (pyInt (v + (divisor : ℚ) / 2)) divisor * divisor)
  if (new_v : ℚ) < (9 / 10) * v then new_v + divisor else new_v

theorem pyInt_nonneg_eq_floor (q : ℚ) (h : 0 ≤ q) : pyInt q = ⌊q⌋ := by
  unfold pyInt
  rw [if_neg (not_lt.mpr h)]

theorem pyFloorDiv_mul_gt (n d : ℤ) (hd : 0 < d) : n - d < pyFloorDiv n d * d := by
  unfold pyFloorDiv
  rw [Int.fdiv_eq_ediv _ hd.le]
  have h := Int.lt_ediv_add_one_mul_self n hd
  nlinarith [h]

/-- C9 helper: lower bound on the rounded multiple inside `_make_divisible`. -/
theorem make_divisible_round_lb (v : ℚ) (d : ℤ) (hv : 0 < v) (hd : 0 < d) :
    v - (d : ℚ) / 2 < (pyFloorDiv (pyInt (v + (d : ℚ) / 2)) d * d : ℤ) := by
  have hd' : (0 : ℚ) < (d : ℚ) := by exact_mod_cast hd
  have hq : (0 : ℚ) ≤ v + (d : ℚ) / 2 := by linarith
  have hfloor : pyInt (v + (d : ℚ) / 2) = ⌊v + (d : ℚ) / 2⌋ := pyInt_nonneg_eq_floor _ hq
  set n : ℤ := pyInt (v + (d : ℚ) / 2) with hn
  have h1 : v + (d : ℚ) / 2 - 1 < (n : ℚ) := by
    rw [hfloor]
    exact_mod_cast Int.sub_one_lt_floor (v + (d : ℚ) / 2)
  have h2 : n - d < pyFloorDiv n d * d := pyFloorDiv_mul_gt n d hd
  have h2' : (n : ℚ) - (d : ℚ) + 1 ≤ ((pyFloorDiv n d * d : ℤ) : ℚ) := by
    have : n - d + 1 ≤ pyFloorDiv n d * d := by omega
    exact_mod_cast this
  linarith

/-- C9: for every rational `v > 0` and integer `divisor > 0`, with `min_value`
left as `None`, `_make_divisible v divisor` returns a positive integer that is
an exact multiple of `divisor`, is at least `divisor`, and is at least
`0.9 * v`. -/
theorem make_divisible_of_pos (v : ℚ) (divisor : ℤ)
    (hv : 0 < v) (hd : 0 < divisor) :
    0 < _make_divisible v divisor none ∧
    divisor ∣ _make_divisible v divisor none ∧
    divisor ≤ _make_divisible v divisor none ∧
    (9 / 10 : ℚ) * v ≤ ((_make_divisible v divisor none : ℤ) : ℚ) := by
  have hd' : (0 : ℚ) < (divisor : ℚ) := by exact_mod_cast hd
  unfold _make_divisible
  simp only [Option.getD]
  set m : ℤ := max divisor (pyFloorDiv (pyInt (v + (divisor : ℚ) / 2)) divisor * divisor)
    with hm
  have hdvd : divisor ∣ m := by
    rcases max_choice divisor (pyFloorDiv (pyInt (v + (divisor : ℚ) / 2)) divisor * divisor)
      with h | h
    · rw [hm, h]
    · rw [hm, h]; exact dvd_mul_left divisor _
  have hdm : divisor ≤ m := le_max_left _ _
  have hmlb : v - (divisor : ℚ) / 2 <
      ((pyFloorDiv (pyInt (v + (divisor : ℚ) / 2)) divisor * divisor : ℤ) : ℚ) :=
    make_divisible_round_lb v divisor hv hd
  have hm2i : pyFloorDiv (pyInt (v + (divisor : ℚ) / 2)) divisor * divisor ≤ m :=
    le_max_right _ _
  have hm2 : ((pyFloorDiv (pyInt (v + (divisor : ℚ) / 2)) divisor * divisor : ℤ) : ℚ)
      ≤ (m : ℚ) := by exact_mod_cast hm2i
  by_cases hc : ((m : ℤ) : ℚ) < 9 / 10 * v
  · rw [if_pos hc]
    refine ⟨by omega, dvd_add hdvd dvd_rfl, by omega, ?_⟩
    push_cast
    linarith
  · rw [if_neg hc]
    exact ⟨by omega, hdvd, hdm, not_lt.mp hc⟩

/-- C9 witness: `_make_divisible 24 8 = 24` satisfies the specification at a
concrete input. -/
theorem make_divisible_of_pos_witness :
    0 < _make_divisible 24 8 none ∧
    (8 : ℤ) ∣ _make_divisible 24 8 none ∧
    (8 : ℤ) ≤ _make_divisible 24 8 none ∧
    (9 / 10 : ℚ) * 24 ≤ ((_make_divisible 24 8 none : ℤ) : ℚ) :=
  make_divisible_of_pos 24 8 (by norm_num) (by norm_num)

/-! ## `fill_up_weights` (nets/MobileNetv2.py lines 197-206, identical in
nets/MobileNext.py lines 160-169) -/

/-- A 4-axis weight tensor `w[outChannel][inChannel][i][j]`, modelled as a
total function on indices. -/
def WTensor : Type := ℕ → ℕ → ℕ → ℕ → ℚ

/-- Single-cell assignment `w[a, b, i, j] = v`. -/
def writeW (w : WTensor) (a b i j : ℕ) (v : ℚ) : WTensor :=
  fun a' b' i' j' => if a' = a ∧ b' = b ∧ i' = i ∧ j' = j then v else w a' b' i' j'

/-- `f = math.ceil(w.size(2) / 2)` for spatial size `k`. -/
def fillF (k : ℕ) : ℕ := (k + 1) / 2

/-- `c = (2 * f - 1 - f % 2) / (2. * f)`. -/
def fillC (k : ℕ) : ℚ :=
  (2 * (fillF k : ℚ) - 1 - ((fillF k % 2 : ℕ) : ℚ)) / (2 * (fillF k : ℚ))

/-- The value written at `w[0, 0, i, j]`:
`(1 - math.fabs(i / f - c)) * (1 - math.fabs(j / f - c))`. -/
def upValue (k i j : ℕ) : ℚ :=
  (1 - |(i : ℚ) / (fillF k : ℚ) - fillC k|) *
    (1 - |(j : ℚ) / (fillF k : ℚ) - fillC k|)

/-- The double loop `for i in range(k): for j in range(k): w[0, 0, i, j] = ...`. -/
def fillLoop1 (k : ℕ) (w : WTensor) : WTensor :=
  (List.range k).foldl
    (fun w i => (List.range k).foldl (fun w j => writeW w 0 0 i j (upValue k i j)) w) w

/-- The slice assignment `w[c, 0, :, :] = w[0, 0, :, :]`. -/
def copySlice (w : WTensor) (c : ℕ) : WTensor :=
  fun a b i j => if a = c ∧ b = 0 then w 0 0 i j else w a b i j

/-- The loop `for c in range(1, w.size(0)): w[c, 0, :, :] = w[0, 0, :, :]`. -/
def fillLoop2 (cN : ℕ) (w : WTensor) : WTensor :=
  (List.range' 1 (cN - 1)).foldl copySlice w

/-- `fill_up_weights(up)` on a weight tensor with `cN` output channels and a
`k × k` spatial extent. -/
def fill_up_weights (cN k : ℕ) (w : WTensor) : WTensor :=
  fillLoop2 cN (fillLoop1 k w)

/-- The all-zero weight tensor, used as a concrete starting point. -/
def zeroW : WTensor := fun _ _ _ _ => 0

theorem foldl_writeRow (k i : ℕ) (l : List ℕ) (w : WTensor) (a b i' j : ℕ) :
    (l.foldl (fun w j => writeW w 0 0 i j (upValue k i j)) w) a b i' j =
    if a = 0 ∧ b = 0 ∧ i' = i ∧ j ∈ l then upValue k i j else w a b i' j := by
  induction l generalizing w with
  | nil => simp
  | cons hd tl ih =>
    simp only [List.foldl_cons, ih, List.mem_cons]
    by_cases ha : a = 0
    · by_cases hb : b = 0
      · by_cases hi : i' = i
        · by_cases hj : j ∈ tl
          · simp [ha, hb, hi, hj]
          · by_cases hjh : j = hd
            · subst hjh
              simp [ha, hb, hi, hj, writeW]
            · simp [ha, hb, hi, hj, hjh, writeW]
        · simp [hi, writeW]
      · simp [hb, writeW]
    · simp [ha, writeW]

theorem fillLoop1_apply (k : ℕ) (w : WTensor) (a b i j : ℕ) :
    fillLoop1 k w a b i j =
    if a = 0 ∧ b = 0 ∧ i < k ∧ j < k then upValue k i j else w a b i j := by
  unfold fillLoop1
  have main : ∀ (l : List ℕ) (w : WTensor),
      (l.foldl (fun w i =>
        (List.range k).foldl (fun w j => writeW w 0 0 i j (upValue k i j)) w) w) a b i j =
      if a = 0 ∧ b = 0 ∧ i ∈ l ∧ j < k then upValue k i j else w a b i j := by
    intro l
    induction l with
    | nil => intro w; simp
    | cons hd tl ih =>
      intro w
      simp only [List.foldl_cons, ih, List.mem_cons]
      rw [foldl_writeRow]
      simp only [List.mem_range]
      by_cases ha : a = 0
      · by_cases hb : b = 0
        · by_cases hj : j < k
          · by_cases hi : i ∈ tl
            · simp [ha, hb, hi, hj]
            · by_cases hih : i = hd
              · simp [ha, hb, hi, hih, hj]
              · simp [ha, hb, hi, hih, hj]
          · simp [hj]
        · simp [hb]
      · simp [ha]
  rw [main (List.range k) w]
  simp [List.mem_range]

theorem foldl_copySlice (l : List ℕ) (h0 : 0 ∉ l) (w : WTensor) (a b i j : ℕ) :
    (l.foldl copySlice w) a b i j =
    if a ∈ l ∧ b = 0 then w 0 0 i j else w a b i j := by
  induction l generalizing w with
  | nil => simp
  | cons hd tl ih =>
    have hhd : hd ≠ 0 := by intro h; exact h0 (by simp [h])
    have h0' : 0 ∉ tl := fun h => h0 (List.mem_cons_of_mem _ h)
    simp only [List.foldl_cons, ih h0', List.mem_cons]
    have hcs0 : copySlice w hd 0 0 i j = w 0 0 i j := by
      simp [copySlice, fun h => hhd (Eq.symm h)]
    by_cases hb : b = 0
    · by_cases ha : a ∈ tl
      · simp [ha, hb, hcs0]
      · by_cases hah : a = hd
        · simp [ha, hah, hb, copySlice]
        · simp [ha, hah, hb, copySlice]
    · simp [hb, copySlice]

theorem fillLoop2_apply (cN : ℕ) (w : WTensor) (a b i j : ℕ) :
    fillLoop2 cN w a b i j =
    if (1 ≤ a ∧ a < cN) ∧ b = 0 then w 0 0 i j else w a b i j := by
  unfold fillLoop2
  have hmem' : ∀ m, m ∈ List.range' 1 (cN - 1) ↔ (1 ≤ m ∧ m < cN) := by
    intro m
    rw [List.mem_range']
    constructor
    · rintro ⟨i, hi, rfl⟩; omega
    · rintro ⟨h1, h2⟩; exact ⟨m - 1, by omega, by omega⟩
  rw [foldl_copySlice]
  · by_cases hmem : a ∈ List.range' 1 (cN - 1)
    · simp [hmem, (hmem' a).mp hmem]
    · have := (hmem' a).not.mp hmem
      simp [hmem, this]
  · intro h
    have := (hmem' 0).mp h
    omega

theorem fill_up_weights_value (cN k : ℕ) (w : WTensor) (c i j : ℕ)
    (hc : c < cN) (hi : i < k) (hj : j < k) :
    fill_up_weights cN k w c 0 i j = upValue k i j := by
  unfold fill_up_weights
  rw [fillLoop2_apply]
  by_cases hc0 : c = 0
  · subst hc0
    simp [fillLoop1_apply, hi, hj]
  · have h1 : 1 ≤ c := by omega
    simp [h1, hc, fillLoop1_apply, hi, hj]

/-- C10: `fill_up_weights` writes only the input-channel-0 slice: afterwards
`w[c, 0, :, :] = w[0, 0, :, :]` for every output channel `c < cN`, and every
slice `w[c, b, :, :]` with `b ≥ 1` keeps its prior value. -/
theorem fill_up_weights_frame_effect (cN k : ℕ) (w : WTensor) :
    (∀ c, c < cN → ∀ i j,
      fill_up_weights cN k w c 0 i j = fill_up_weights cN k w 0 0 i j) ∧
    (∀ c b i j, 1 ≤ b → fill_up_weights cN k w c b i j = w c b i j) := by
  constructor
  · intro c hc i j
    by_cases hc0 : c = 0
    · subst hc0; rfl
    · unfold fill_up_weights
      rw [fillLoop2_apply, fillLoop2_apply]
      have h1 : 1 ≤ c := by omega
      simp [h1, hc]
  · intro c b i j hb
    unfold fill_up_weights
    rw [fillLoop2_apply]
    have hb0 : ¬ b = 0 := by omega
    simp only [hb0, and_false, if_false]
    rw [fillLoop1_apply]
    simp [hb0]

/-- C10 witness: the frame property evaluated on a concrete 3-channel, 2x2
tensor starting from the all-zero tensor. -/
theorem fill_up_weights_frame_effect_witness :
    fill_up_weights 3 2 zeroW 2 0 0 1 = fill_up_weights 3 2 zeroW 0 0 0 1 ∧
    fill_up_weights 3 2 zeroW 2 1 0 1 = zeroW 2 1 0 1 :=
  ⟨(fill_up_weights_frame_effect 3 2 zeroW).1 2 (by norm_num) 0 1,
   (fill_up_weights_frame_effect 3 2 zeroW).2 2 1 0 1 (le_refl 1)⟩

theorem fillC_num_eq (k : ℕ) (hk : k % 4 = 0 ∨ k % 4 = 1) :
    2 * (fillF k : ℚ) - 1 - ((fillF k % 2 : ℕ) : ℚ) = (k : ℚ) - 1 := by
  rcases hk with h | h
  · obtain ⟨a, rfl⟩ : ∃ a, k = 4 * a := ⟨k / 4, by omega⟩
    have hf : fillF (4 * a) = 2 * a := by unfold fillF; omega
    rw [hf, show 2 * a % 2 = 0 from by omega]
    push_cast
    ring
  · obtain ⟨a, rfl⟩ : ∃ a, k = 4 * a + 1 := ⟨k / 4, by omega⟩
    have hf : fillF (4 * a + 1) = 2 * a + 1 := by unfold fillF; omega
    rw [hf, show (2 * a + 1) % 2 = 1 from by omega]
    push_cast
    ring

theorem fillC_eq (k : ℕ) (hk : k % 4 = 0 ∨ k % 4 = 1) :
    fillC k = ((k : ℚ) - 1) / (2 * (fillF k : ℚ)) := by
  unfold fillC
  rw [fillC_num_eq k hk]

theorem upValue_abs_symm (k i : ℕ) (hk : k % 4 = 0 ∨ k % 4 = 1) (hi : i < k) :
    |((k - 1 - i : ℕ) : ℚ) / (fillF k : ℚ) - fillC k| =
    |(i : ℚ) / (fillF k : ℚ) - fillC k| := by
  have hk0 : 0 < k := by omega
  have hf : 0 < fillF k := by unfold fillF; omega
  have hfq : (0 : ℚ) < (fillF k : ℚ) := by exact_mod_cast hf
  have hcast : ((k - 1 - i : ℕ) : ℚ) = (k : ℚ) - 1 - (i : ℚ) := by
    have h1 : (k - 1 - i : ℕ) = k - (1 + i) := by omega
    rw [h1, Nat.cast_sub (by omega)]
    push_cast
    ring
  rw [hcast, fillC_eq k hk]
  have harg : ((k : ℚ) - 1 - (i : ℚ)) / (fillF k : ℚ) -
      ((k : ℚ) - 1) / (2 * (fillF k : ℚ)) =
      -((i : ℚ) / (fillF k : ℚ) - ((k : ℚ) - 1) / (2 * (fillF k : ℚ))) := by
    field_simp
    ring
  rw [harg, abs_neg]

theorem upValue_row_symm (k i j : ℕ) (hk : k % 4 = 0 ∨ k % 4 = 1) (hi : i < k) :
    upValue k (k - 1 - i) j = upValue k i j := by
  unfold upValue
  rw [upValue_abs_symm k i hk hi]

theorem upValue_col_symm (k i j : ℕ) (hk : k % 4 = 0 ∨ k % 4 = 1) (hj : j < k) :
    upValue k i (k - 1 - j) = upValue k i j := by
  unfold upValue
  rw [upValue_abs_symm k j hk hj]

/-- C1 counterexample: in the `kernel_size=2` transposed convolutions built by
`IDAUp` (`k = 2`, `out_dim = 64` output channels), the filled kernel is
`[[1, 0], [0, 0]]`, which is not symmetric under row reflection: the entry at
`(i, j) = (0, 0)` differs from the one at `(k-1-0, 0) = (1, 0)`. -/
theorem fill_up_weights_symm_cex :
    fill_up_weights 64 2 zeroW 0 0 0 0 ≠ fill_up_weights 64 2 zeroW 0 0 (2 - 1 - 0) 0 := by
  have h1 := fill_up_weights_value 64 2 zeroW 0 0 0 (by norm_num) (by norm_num) (by norm_num)
  have h2 := fill_up_weights_value 64 2 zeroW 0 1 0 (by norm_num) (by norm_num) (by norm_num)
  rw [show (2 - 1 - 0 : ℕ) = 1 from rfl, h1, h2]
  have hf : fillF 2 = 1 := rfl
  have hc : fillC 2 = 0 := by
    unfold fillC
    rw [hf]
    norm_num
  unfold upValue
  rw [hf, hc]
  norm_num

/-- C1 (amended): the kernel filled by `fill_up_weights` is symmetric under
row reflection and under column reflection for every output channel whenever
the spatial size `k` satisfies `k % 4 = 0` or `k % 4 = 1`; this excludes the
`kernel_size=2` transposed convolutions of `IDAUp`, whose filled kernel is
`[[1, 0], [0, 0]]`. -/
theorem fill_up_weights_symm (cN k : ℕ) (w : WTensor) (c i j : ℕ)
    (hk : k % 4 = 0 ∨ k % 4 = 1) (hc : c < cN) (hi : i < k) (hj : j < k) :
    fill_up_weights cN k w c 0 i j = fill_up_weights cN k w c 0 (k - 1 - i) j ∧
    fill_up_weights cN k w c 0 i j = fill_up_weights cN k w c 0 i (k - 1 - j) := by
  have hi' : k - 1 - i < k := by omega
  have hj' : k - 1 - j < k := by omega
  rw [fill_up_weights_value cN k w c i j hc hi hj,
    fill_up_weights_value cN k w c (k - 1 - i) j hc hi' hj,
    fill_up_weights_value cN k w c i (k - 1 - j) hc hi hj']
  exact ⟨(upValue_row_symm k i j hk hi).symm, (upValue_col_symm k i j hk hj).symm⟩

/-- C1 witness: symmetry at the concrete input `cN = 64`, `k = 4`, channel 1,
cell `(1, 2)`, starting from the all-zero tensor. -/
theorem fill_up_weights_symm_witness :
    fill_up_weights 64 4 zeroW 1 0 1 2 = fill_up_weights 64 4 zeroW 1 0 (4 - 1 - 1) 2 ∧
    fill_up_weights 64 4 zeroW 1 0 1 2 = fill_up_weights 64 4 zeroW 1 0 1 (4 - 1 - 2) :=
  fill_up_weights_symm 64 4 zeroW 1 1 2 (Or.inl rfl) (by norm_num) (by norm_num)
    (by norm_num)

/-! ## `load_model` (nets/MobileNetv2.py lines 13-20)

A Python `dict` / `OrderedDict` is modelled as an ordered association list
with pairwise-distinct keys. -/

section LoadModel

variable {V : Type}

/-- `OrderedDict` assignment `d[k] = v`: overwrites in place when the key is
already present, appends at the end otherwise. -/
def odInsert (d : List (String × V)) (k : String) (v : V) : List (String × V) :=
  if k ∈ d.map Prod.fst then d.map (fun p => if p.1 = k then (k, v) else p)
  else d ++ [(k, v)]

/-- The restore dictionary built by `load_model`:
`new_keys = list(new_model.keys()); old_keys = list(state_dict.keys());`
`for id in range(len(new_keys)): restore_dict[new_keys[id]] = state_dict[old_keys[id]]`.
Out-of-range list indexing (Python `IndexError`) is modelled by the default
values `dk` / `dv`; the specification below only covers in-range runs. -/
def load_model_restore (newKeys : List String) (stateDict : List (String × V))
    (dk : String) (dv : V) : List (String × V) :=
  let oldKeys := stateDict.map Prod.fst
  (List.range newKeys.length).foldl
    (fun rd id =>
      odInsert rd (newKeys.getD id dk) ((stateDict.lookup (oldKeys.getD id dk)).getD dv))
    []

theorem getD_of_lt {α : Type} (l : List α) (n : ℕ) (d : α) (h : n < l.length) :
    l.getD n d = l[n] := by
  simp [List.getD_eq_getElem?_getD, List.getElem?_eq_getElem h]

theorem lookup_key_at (sd : List (String × V)) (hnd : (sd.map Prod.fst).Nodup)
    (i : ℕ) (hi : i < sd.length) (dk : String) (dv : V) :
    sd.lookup ((sd.map Prod.fst).getD i dk) = some ((sd.getD i (dk, dv)).2) := by
  induction sd generalizing i with
  | nil => simp at hi
  | cons hd tl ih =>
    obtain ⟨k, v⟩ := hd
    rw [List.map_cons] at hnd
    have h1 := List.nodup_cons.mp hnd
    cases i with
    | zero => simp
    | succ n =>
      have hn : n < tl.length := by simpa using hi
      have hmem : (tl.map Prod.fst).getD n dk ∈ tl.map Prod.fst := by
        rw [getD_of_lt _ _ _ (by simpa using hn)]
        exact List.getElem_mem _
      have hne : ((tl.map Prod.fst).getD n dk) ≠ k := fun h => h1.1 (h ▸ hmem)
      rw [List.map_cons, List.getD_cons_succ, List.getD_cons_succ, List.lookup_cons]
      simp only [beq_eq_false_iff_ne.mpr hne]
      exact ih h1.2 n hn

theorem load_model_aux (newKeys : List String) (stateDict : List (String × V))
    (dk : String) (dv : V) (hnew : newKeys.Nodup)
    (n : ℕ) (hn : n ≤ newKeys.length) :
    (List.range n).foldl
      (fun rd id =>
        odInsert rd (newKeys.getD id dk)
          ((stateDict.lookup ((stateDict.map Prod.fst).getD id dk)).getD dv)) [] =
    (List.range n).map
      (fun i => (newKeys.getD i dk,
        (stateDict.lookup ((stateDict.map Prod.fst).getD i dk)).getD dv)) := by
  induction n with
  | zero => simp
  | succ m ih =>
    rw [List.range_succ, List.foldl_append, List.foldl_cons, List.foldl_nil,
      ih (by omega), List.map_append]
    unfold odInsert
    rw [if_neg]
    · simp
    · rw [List.map_map]
      intro hmem
      obtain ⟨i, hi_mem, hi_eq⟩ := List.mem_map.mp hmem
      rw [List.mem_range] at hi_mem
      have hm : m < newKeys.length := by omega
      have hilt : i < newKeys.length := by omega
      simp only [Function.comp] at hi_eq
      rw [getD_of_lt _ _ _ hilt, getD_of_lt _ _ _ hm] at hi_eq
      have := (hnew.getElem_inj_iff).mp hi_eq
      omega

/-- C3: for every target key list and every source state dictionary with at
least as many entries, the restore dictionary built by `load_model` has
exactly the target's key list (same set and same order), and the value stored
under the `i`-th target key is the value of the `i`-th source key. -/
theorem load_model_restore_spec (newKeys : List String) (stateDict : List (String × V))
    (dk : String) (dv : V)
    (hnew : newKeys.Nodup) (hold : (stateDict.map Prod.fst).Nodup)
    (hlen : newKeys.length ≤ stateDict.length) :
    (load_model_restore newKeys stateDict dk dv).map Prod.fst = newKeys ∧
    ∀ i, i < newKeys.length →
      (load_model_restore newKeys stateDict dk dv).getD i (dk, dv) =
        (newKeys.getD i dk, (stateDict.getD i (dk, dv)).2) := by
  unfold load_model_restore
  rw [load_model_aux newKeys stateDict dk dv hnew newKeys.length (le_refl _)]
  constructor
  · rw [List.map_map]
    apply List.ext_getElem
    · simp
    · intro i h1 h2
      simp only [List.getElem_map, List.getElem_range, Function.comp]
      rw [getD_of_lt _ _ _ h2]
  · intro i hi
    rw [getD_of_lt _ _ _ (by simpa using hi)]
    simp only [List.getElem_map, List.getElem_range]
    rw [lookup_key_at stateDict hold i (by omega) dk dv]
    rfl

end LoadModel

/-- C3 witness: the specification evaluated on a concrete 2-key target model
and a 3-key source state dictionary. -/
theorem load_model_restore_spec_witness :
    (load_model_restore ["a", "b"] [("x", (10 : ℤ)), ("y", 20), ("z", 30)] "" 0).map
      Prod.fst = ["a", "b"] ∧
    (load_model_restore ["a", "b"] [("x", (10 : ℤ)), ("y", 20), ("z", 30)] "" 0).getD 1
      ("", 0) = ("b", 20) := by
  have h := load_model_restore_spec ["a", "b"] [("x", (10 : ℤ)), ("y", 20), ("z", 30)] "" 0
    (by decide) (by decide) (by decide)
  refine ⟨h.1, ?_⟩
  rw [h.2 1 (by decide)]
  rfl

/-! ## `InvertResidual` and `SandGlass` blocks
(nets/MobileNetv2.py lines 42-101; nets/MobileNext.py lines 43-72 — the
MobileNeXt `SandGlass` is identical up to the name of its ratio argument).
The convolutional stack `self.conv` is abstracted as an arbitrary function
`conv : T → T`; the claims only concern the residual branch. -/

/-- The constructor state of `InvertResidual` deciding `forward`'s branch:
`self.use_res_connect = self.stride == 1 and inp == outp`. -/
structure InvertResidual where
  inp : ℤ
  outp : ℤ
  stride : ℤ
  useResConnect : Bool
deriving DecidableEq

/-- `InvertResidual.__init__`: `assert stride in [1, 2]` (a failed assertion
is `none`), then record `use_res_connect`. `expand_ratio` only shapes the
convolutional stack, which is abstracted away. -/
def InvertResidual.make (inp outp stride : ℤ) (expand_ratio : ℚ) : Option InvertResidual :=
  if stride = 1 ∨ stride = 2 then
    some ⟨inp, outp, stride, stride == 1 && inp == outp⟩
  else none

/-- `InvertResidual.forward`: `x + self.conv(x)` when `use_res_connect`,
else `self.conv(x)`. -/
def InvertResidual.forward {T : Type} [Add T] (b : InvertResidual) (conv : T → T)
    (x : T) : T :=
  if b.useResConnect then x + conv x else conv x

/-- The constructor state of `SandGlass` deciding `forward`'s branch:
`self.identity = stride == 1 and inp == oup`. -/
structure SandGlass where
  inp : ℤ
  oup : ℤ
  stride : ℤ
  identity : Bool
deriving DecidableEq

/-- `SandGlass.__init__`: `assert stride in [1, 2]`, then record
`self.identity`. -/
def SandGlass.make (inp oup stride : ℤ) (expand_ratio : ℚ) : Option SandGlass :=
  if stride = 1 ∨ stride = 2 then
    some ⟨inp, oup, stride, stride == 1 && inp == oup⟩
  else none

/-- `SandGlass.forward`: `x + self.conv(x)` when `identity`, else
`self.conv(x)`. -/
def SandGlass.forward {T : Type} [Add T] (b : SandGlass) (conv : T → T) (x : T) : T :=
  if b.identity then x + conv x else conv x

/-- C4: a successfully constructed `InvertResidual` or `SandGlass` block
returns `x + conv(x)` exactly when it was constructed with stride 1 and equal
input and output channel counts, and returns `conv(x)` otherwise. -/
theorem block_residual_iff {T : Type} [Add T]
    (inp outp stride : ℤ) (er : ℚ) (bi : InvertResidual) (bs : SandGlass)
    (hbi : InvertResidual.make inp outp stride er = some bi)
    (hbs : SandGlass.make inp outp stride er = some bs)
    (conv : T → T) (x : T) :
    ((stride = 1 ∧ inp = outp) →
      bi.forward conv x = x + conv x ∧ bs.forward conv x = x + conv x) ∧
    (¬(stride = 1 ∧ inp = outp) →
      bi.forward conv x = conv x ∧ bs.forward conv x = conv x) := by
  unfold InvertResidual.make at hbi
  unfold SandGlass.make at hbs
  by_cases hs : stride = 1 ∨ stride = 2
  · rw [if_pos hs] at hbi hbs
    have hbi' := Option.some.inj hbi
    have hbs' := Option.some.inj hbs
    subst hbi' hbs'
    constructor
    · rintro ⟨h1, h2⟩
      unfold InvertResidual.forward SandGlass.forward
      simp [h1, h2]
    · intro h
      unfold InvertResidual.forward SandGlass.forward
      have : ¬(stride == 1 && inp == outp) = true := by
        simp only [Bool.and_eq_true, beq_iff_eq]
        exact h
      simp only [this, if_false]
      exact ⟨rfl, rfl⟩
  · rw [if_neg hs] at hbi
    exact absurd hbi (by simp)

/-- C4 witness: the residual branch taken at the concrete block
`inp = outp = 16`, `stride = 1`, on the squaring map at `x = 3`. -/
theorem block_residual_iff_witness :
    InvertResidual.forward ⟨16, 16, 1, true⟩ (fun q : ℚ => q * q) 3 = 3 + 3 * 3 ∧
    SandGlass.forward ⟨16, 16, 1, true⟩ (fun q : ℚ => q * q) 3 = 3 + 3 * 3 :=
  (block_residual_iff 16 16 1 6 ⟨16, 16, 1, true⟩ ⟨16, 16, 1, true⟩ (by decide) (by decide)
    (fun q : ℚ => q * q) 3).1 ⟨rfl, rfl⟩

/-- C6: the constructor-time assertion `assert stride in [1, 2]` of
`InvertResidual` and `SandGlass` passes exactly for stride 1 or stride 2,
whatever the other constructor arguments. -/
theorem block_stride_assertion (inp outp stride : ℤ) (er : ℚ) :
    ((InvertResidual.make inp outp stride er).isSome ↔ (stride = 1 ∨ stride = 2)) ∧
    ((SandGlass.make inp outp stride er).isSome ↔ (stride = 1 ∨ stride = 2)) := by
  unfold InvertResidual.make SandGlass.make
  by_cases hs : stride = 1 ∨ stride = 2
  · simp [hs]
  · simp [hs]

/-! ## Detection-head bias initialization
(`CenterNet.__init__`, nets/MobileNetv2.py lines 245-262;
`PoseResNet.__init__` and `init_weights`, nets/ResNet_FPN.py lines 117-135
and 206-224). Biases are modelled as lists of rationals, one entry per
output channel; the framework's random default initialization is an
arbitrary given list. -/

/-- Character-list prefix test, auxiliary for Python's substring operator. -/
def charsPrefix : List Char → List Char → Bool
  | [], _ => true
  | _ :: _, [] => false
  | a :: as, b :: bs => a == b && charsPrefix as bs

/-- Character-list substring test, auxiliary for Python's substring operator. -/
def charsContains : List Char → List Char → Bool
  | [], needle => charsPrefix needle []
  | h :: tl, needle => charsPrefix needle (h :: tl) || charsContains tl needle

/-- Python `needle in hay` on strings: substring containment. -/
def pyInStr (needle hay : String) : Bool := charsContains hay.data needle.data

/-- `self.heads = {'hm': num_classes, 'wh': 2, 'reg': 2}`. -/
def centerNetHeads (num_classes : ℕ) : List (String × ℕ) :=
  [("hm", num_classes), ("wh", 2), ("reg", 2)]

/-- The bias vector of head `head` after the `CenterNet.__init__` loop, from
the framework default `d`: `fc.bias.data.fill_(-2.19)` when `'hm' in head`,
else `nn.init.constant_(fc.bias, 0)`. -/
def centerNetHeadBias (head : String) (d : List ℚ) : List ℚ :=
  if pyInStr "hm" head then d.map (fun _ => -219 / 100) else d.map (fun _ => 0)

/-- The per-convolution bias vectors of `self.hmap` right after
`PoseResNet.__init__`: for `head_conv > 0` the head is
`Conv2d(128, head_conv, 3) ; ReLU ; Conv2d(head_conv, num_classes, 1)` and
`self.hmap[-1].bias.data.fill_(-2.19)` overwrites the final bias; otherwise
the head is a single `Conv2d(128, num_classes, 1)` with default bias. -/
def poseResNetHmapInit (head_conv : ℤ) (dHidden dFinal : List ℚ) : List (List ℚ) :=
  if head_conv > 0 then [dHidden, dFinal.map (fun _ => -219 / 100)]
  else [dFinal]

/-- `init_weights`: `nn.init.constant_(m.bias, -2.19)` for every `Conv2d`
inside `self.hmap.modules()`. -/
def poseResNetInitWeightsHmap (biases : List (List ℚ)) : List (List ℚ) :=
  biases.map (fun b => b.map (fun _ => -219 / 100))

/-- The `hmap` bias vectors after `get_pose_net` / `resnet_18` (construction
followed by `init_weights`). -/
def poseResNetHmapBiases (head_conv : ℤ) (dHidden dFinal : List ℚ) : List (List ℚ) :=
  poseResNetInitWeightsHmap (poseResNetHmapInit head_conv dHidden dFinal)

/-- C2: immediately after constructing a detector, every channel of the bias
of the final convolution of the heatmap head equals `-2.19`: the `'hm'` head
of `CenterNet`, and the last convolution of `self.hmap` of `PoseResNet` as
built by `get_pose_net` / `resnet_18`, for every `num_classes` and every
`head_conv`. -/
theorem heatmap_bias_init (head_conv : ℤ) (num_classes : ℕ)
    (dHidden dFinal d : List ℚ) (hd : d.length = num_classes)
    (hdf : dFinal.length = num_classes) :
    (∀ c, c < num_classes → (centerNetHeadBias "hm" d).getD c 0 = -219 / 100) ∧
    (∀ c, c < num_classes →
      ((poseResNetHmapBiases head_conv dHidden dFinal).getLastD []).getD c 0 =
        -219 / 100) := by
  constructor
  · intro c hc
    have hin : pyInStr "hm" "hm" = true := by decide
    unfold centerNetHeadBias
    rw [hin, if_pos rfl]
    rw [getD_of_lt _ _ _ (by simpa [hd] using hc)]
    simp
  · intro c hc
    unfold poseResNetHmapBiases poseResNetInitWeightsHmap poseResNetHmapInit
    by_cases hhc : head_conv > 0
    · rw [if_pos hhc]
      simp only [List.map_cons, List.map_nil, List.getLastD_cons, List.getLastD_nil]
      rw [getD_of_lt _ _ _ (by simpa [hdf] using hc)]
      simp
    · rw [if_neg hhc]
      simp only [List.map_cons, List.map_nil, List.getLastD_cons, List.getLastD_nil]
      rw [getD_of_lt _ _ _ (by simpa [hdf] using hc)]
      simp

/-- C2 witness: both heatmap-head bias channels equal `-2.19` at
`head_conv = 64`, `num_classes = 2`, from concrete default biases. -/
theorem heatmap_bias_init_witness :
    (centerNetHeadBias "hm" [5, 7]).getD 1 0 = -219 / 100 ∧
    ((poseResNetHmapBiases 64 [9] [1, 2]).getLastD []).getD 1 0 = -219 / 100 := by
  have h := heatmap_bias_init 64 2 [9] [1, 2] [5, 7] rfl rfl
  exact ⟨h.1 1 (by norm_num), h.2 1 (by norm_num)⟩

/-! ## `MobileNetv2` construction (nets/MobileNetv2.py lines 104-161) -/

/-- The hardcoded `inverted_residual_setting` rows `[t, c, n, s]`. -/
def inverted_residual_setting : List (List ℤ) :=
  [[1, 16, 1, 1], [6, 24, 2, 2], [6, 32, 3, 2], [6, 64, 4, 2],
   [6, 96, 3, 1], [6, 160, 3, 2], [6, 320, 1, 1]]

/-- `self.feat_id = [1, 2, 4, 6]`. -/
def feat_id : List ℕ := [1, 2, 4, 6]

/-- The `ValueError` guard of `MobileNetv2.__init__`:
`len(inverted_residual_setting) == 0 or len(inverted_residual_setting[0]) != 4`
(Python's short-circuiting `or`). -/
def mobilenetv2SettingRaises (setting : List (List ℤ)) : Bool :=
  decide (setting.length = 0) || decide ((setting.headD []).length ≠ 4)

/-- Whether `MobileNetv2.__init__(width_mult, round_nearest)` raises its
`ValueError`: the guard runs on the hardcoded setting before either argument
is used. -/
def mobilenetv2InitRaises (width_mult : ℚ) (round_nearest : ℤ) : Bool :=
  mobilenetv2SettingRaises inverted_residual_setting

/-- A constructed layer: `BasicConv(inp, outp, kernel_size, stride, padding)`
or `SandGlass(inp, oup, stride, expand_ratio)` (the block class selected by
`block = SandGlass`). -/
inductive Layer where
  | basicConv (inp outp k s p : ℤ)
  | sandGlass (inp oup stride t : ℤ)
deriving DecidableEq

/-- The output-channel count declared by a layer's final convolution. -/
def Layer.outChannels : Layer → ℤ
  | .basicConv _ o _ _ _ => o
  | .sandGlass _ o _ _ => o

/-- The running state of the `MobileNetv2.__init__` construction loop. -/
structure MNState where
  input_channel : ℤ
  features : List Layer
  stages : List (List Layer)
  feat_channel : List ℤ
deriving DecidableEq

/-- One iteration of `for id, (t, c, n, s) in enumerate(inverted_residual_setting)`:
build `n` blocks (stride `s` on the first, 1 after), then, when
`id in self.feat_id`, close the current `nn.Sequential` stage and record
`ouput_channel` in `self.feat_channel`. A row that does not unpack into four
values is never reached on the hardcoded setting. -/
def mnStep (width_mult : ℚ) (round_nearest : ℤ) (st : MNState)
    (idRow : ℕ × List ℤ) : MNState :=
  match idRow with
  | (id, [t, c, n, s]) =>
    let ouput_channel := _make_divisible ((c : ℚ) * width_mult) round_nearest none
    let p := (List.range n.toNat).foldl
      (fun (p : ℤ × List Layer) i =>
        (ouput_channel,
          p.2 ++ [Layer.sandGlass p.1 ouput_channel (if i = 0 then s else 1) t]))
      (st.input_channel, st.features)
    if id ∈ feat_id then
      { input_channel := p.1, features := [],
        stages := st.stages ++ [p.2],
        feat_channel := st.feat_channel ++ [ouput_channel] }
    else
      { input_channel := p.1, features := p.2, stages := st.stages,
        feat_channel := st.feat_channel }
  | _ => st

/-- `MobileNetv2.__init__`: the first `BasicConv(3, input_channel, 3, 2, 1)`
layer followed by the block-construction loop. -/
def mobilenetv2Construct (width_mult : ℚ) (round_nearest : ℤ) : MNState :=
  let ic0 := _make_divisible (32 * width_mult) round_nearest none
  (inverted_residual_setting.enum).foldl (mnStep width_mult round_nearest)
    ⟨ic0, [Layer.basicConv 3 ic0 3 2 1], [], []⟩

/-- Channel count of a layer's output tensor: the declared output-channel
count of its final convolution. Modelled from the spec: `BasicConv`
(nets/modules.py, absent from src/) is a convolution, batch-norm, activation
unit, so its output has its declared output-channel count. -/
def Layer.applyChannels : Layer → ℤ → ℤ := fun l _ => l.outChannels

/-- `MobileNetv2.forward`: run the input through each stored stage in order,
collecting each stage's output; here tracking only channel counts. -/
def mnForwardChannels (stages : List (List Layer)) (c0 : ℤ) : List ℤ :=
  (stages.foldl (fun (p : ℤ × List ℤ) stage =>
      let x := stage.foldl (fun ch l => Layer.applyChannels l ch) p.1
      (x, p.2 ++ [x])) (c0, [])).2

/-- C7: the `ValueError` guard of `MobileNetv2.__init__` fires exactly when
the configuration list is empty or its first entry does not have exactly 4
elements; on the hardcoded configuration list the constructor never raises
it, for every `width_mult` and `round_nearest`. -/
theorem mobilenetv2_value_error (width_mult : ℚ) (round_nearest : ℤ) :
    (∀ s : List (List ℤ),
      mobilenetv2SettingRaises s = true ↔ (s = [] ∨ (s.headD []).length ≠ 4)) ∧
    mobilenetv2InitRaises width_mult round_nearest = false := by
  constructor
  · intro s
    unfold mobilenetv2SettingRaises
    simp [List.length_eq_zero]
  · rfl


theorem inverted_residual_setting_enum : inverted_residual_setting.enum =
    [(0, [1, 16, 1, 1]), (1, [6, 24, 2, 2]), (2, [6, 32, 3, 2]), (3, [6, 64, 4, 2]),
     (4, [6, 96, 3, 1]), (5, [6, 160, 3, 2]), (6, [6, 320, 1, 1])] := by decide

theorem mkdiv16 : _make_divisible (16 : ℚ) 8 none = 16 := by
  unfold _make_divisible pyInt pyFloorDiv
  norm_num [show Int.fdiv 20 8 = 2 from by decide]

theorem mkdiv24 : _make_divisible (24 : ℚ) 8 none = 24 := by
  unfold _make_divisible pyInt pyFloorDiv
  norm_num [show Int.fdiv 28 8 = 3 from by decide]

theorem mkdiv32 : _make_divisible (32 : ℚ) 8 none = 32 := by
  unfold _make_divisible pyInt pyFloorDiv
  norm_num [show Int.fdiv 36 8 = 4 from by decide]

theorem mkdiv64 : _make_divisible (64 : ℚ) 8 none = 64 := by
  unfold _make_divisible pyInt pyFloorDiv
  norm_num [show Int.fdiv 68 8 = 8 from by decide]

theorem mkdiv96 : _make_divisible (96 : ℚ) 8 none = 96 := by
  unfold _make_divisible pyInt pyFloorDiv
  norm_num [show Int.fdiv 100 8 = 12 from by decide]

theorem mkdiv160 : _make_divisible (160 : ℚ) 8 none = 160 := by
  unfold _make_divisible pyInt pyFloorDiv
  norm_num [show Int.fdiv 164 8 = 20 from by decide]

theorem mkdiv320 : _make_divisible (320 : ℚ) 8 none = 320 := by
  unfold _make_divisible pyInt pyFloorDiv
  norm_num [show Int.fdiv 324 8 = 40 from by decide]

theorem mobilenetv2Construct_eval : mobilenetv2Construct 1 8 =
    ⟨320, [],
     [[Layer.basicConv 3 32 3 2 1, Layer.sandGlass 32 16 1 1,
       Layer.sandGlass 16 24 2 6, Layer.sandGlass 24 24 1 6],
      [Layer.sandGlass 24 32 2 6, Layer.sandGlass 32 32 1 6, Layer.sandGlass 32 32 1 6],
      [Layer.sandGlass 32 64 2 6, Layer.sandGlass 64 64 1 6, Layer.sandGlass 64 64 1 6,
       Layer.sandGlass 64 64 1 6, Layer.sandGlass 64 96 1 6, Layer.sandGlass 96 96 1 6,
       Layer.sandGlass 96 96 1 6],
      [Layer.sandGlass 96 160 2 6, Layer.sandGlass 160 160 1 6,
       Layer.sandGlass 160 160 1 6, Layer.sandGlass 160 320 1 6]],
     [24, 32, 96, 320]⟩ := by
  unfold mobilenetv2Construct
  rw [inverted_residual_setting_enum]
  simp only [List.foldl_cons, List.foldl_nil]
  norm_num [mnStep, feat_id, mkdiv16, mkdiv24, mkdiv32, mkdiv64, mkdiv96, mkdiv160,
    mkdiv320, List.range_succ, show Int.toNat 2 = 2 from rfl,
    show Int.toNat 3 = 3 from rfl, show Int.toNat 4 = 4 from rfl,
    show Int.toNat 1 = 1 from rfl]


/-- C5: `MobileNetv2.forward` returns exactly 4 feature maps, one per
`feat_id` stage (1, 2, 4, 6), whose channel depths are the entries of
`self.feat_channel` — `[24, 32, 96, 320]` at `width_mult = 1.0`. -/
theorem mobilenetv2_forward_channels (c0 : ℤ) :
    (mobilenetv2Construct 1 8).feat_channel = [24, 32, 96, 320] ∧
    (mobilenetv2Construct 1 8).stages.length = 4 ∧
    (mnForwardChannels (mobilenetv2Construct 1 8).stages c0).length = 4 ∧
    mnForwardChannels (mobilenetv2Construct 1 8).stages c0 =
      (mobilenetv2Construct 1 8).feat_channel := by
  rw [mobilenetv2Construct_eval]
  refine ⟨rfl, rfl, ?_, ?_⟩
  · simp [mnForwardChannels, Layer.applyChannels, Layer.outChannels]
  · simp [mnForwardChannels, Layer.applyChannels, Layer.outChannels]

/-! ## Spatial-size arithmetic (C8) -/

/-- Output spatial size of a 2d convolution or pooling window with kernel
`k`, stride `s`, padding `p` (dilation 1, floor mode):
`(h + 2p - k) / s + 1`. -/
def convOut (h k s p : ℕ) : ℕ := (h + 2 * p - k) / s + 1

/-- Output spatial size of a 2d transposed convolution with kernel `k`,
stride `s`, padding `p`, output padding `op`: `(h - 1) s - 2p + k + op`.
The subtraction is placed last so that natural-number truncation agrees with
the framework's integer formula whenever the true output is nonnegative
(here always: every use has `k > 2p`). -/
def deconvOut (h k s p op : ℕ) : ℕ := (h - 1) * s + k + op - 2 * p

/-- Spatial behavior of a constructed backbone layer. Modelled from the
spec for `BasicConv` (nets/modules.py, absent from src/): a standard
convolution with its declared kernel size, stride and padding. A `SandGlass`
block chains dw 3x3 stride-1 pad-1, two 1x1 convs, and dw 3x3 stride-`s`
pad-1 (batch norms and activations preserve size). -/
def Layer.applySpatial : Layer → ℕ → ℕ
  | .basicConv _ _ k s p, h => convOut h k.toNat s.toNat p.toNat
  | .sandGlass _ _ s _, h =>
      convOut (convOut (convOut (convOut h 3 1 1) 1 1 0) 1 1 0) 3 s.toNat 1

/-- `MobileNetv2.forward`, tracking spatial size through each stage. -/
def mnForwardSpatial (stages : List (List Layer)) (h : ℕ) : List ℕ :=
  (stages.foldl (fun (p : ℕ × List ℕ) stage =>
      let x := stage.foldl (fun hh l => Layer.applySpatial l hh) p.1
      (x, p.2 ++ [x])) (h, [])).2

/-- `BasicBlock.forward` spatial size (nets/ResNet_FPN.py lines 22-51):
`conv3x3(stride s)` then `conv3x3(stride 1)`; the residual path matches. -/
def basicBlockSpatial (s h : ℕ) : ℕ := convOut (convOut h 3 s 1) 3 1 1

/-- `_make_layer(block, planes, blocks, stride)` spatial size: first block at
the given stride, remaining blocks at stride 1. -/
def resLayerSpatial (s nblocks h : ℕ) : ℕ :=
  (List.range nblocks).foldl (fun hh i => basicBlockSpatial (if i = 0 then s else 1) hh) h

/-- `PoseResNet.forward` spatial size up to the fused feature map entering
the heads (resnet-18 layout `[2, 2, 2, 2]`): `conv1` (7x7, stride 2, pad 3),
max-pool (3x3, stride 2, pad 1), four residual layers at strides 1, 2, 2, 2,
then three deconvolution stages (kernel 4, stride 2, pad 1, no output pad);
the lateral `fpn_conv` additions preserve the deconvolution output size. -/
def poseResNetFusedSpatial (h : ℕ) : ℕ :=
  let x := convOut h 7 2 3
  let x0 := convOut x 3 2 1
  let x1 := resLayerSpatial 1 2 x0
  let x2 := resLayerSpatial 2 2 x1
  let x3 := resLayerSpatial 2 2 x2
  let x4 := resLayerSpatial 2 2 x3
  let d1 := deconvOut x4 4 2 1 0
  let d2 := deconvOut d1 4 2 1 0
  let d3 := deconvOut d2 4 2 1 0
  d3

/-- `IDAUp.forward` spatial size: `self.up` applies
`ConvTranspose2d(kernel 2, stride 2)` (batch norm and ReLU preserve size);
the sum with the 1x1 lateral has the deconvolution's size. -/
def idaUpSpatial (hx : ℕ) : ℕ := deconvOut hx 2 2 0 0

/-- `MobileNetUp.forward` spatial size on the reversed pyramid: 1x1
`BasicConv` on `layers[0]`, one `IDAUp` per remaining level, then a 3x3
stride-1 pad-1 `BasicConv`. -/
def mobileNetUpSpatial (layers : List ℕ) : ℕ :=
  let x := convOut (layers.headD 0) 1 1 0
  let y := (layers.drop 1).foldl (fun hx _ => idaUpSpatial hx) x
  convOut y 3 1 1

theorem basicBlockSpatial_one (x : ℕ) (hx : 0 < x) : basicBlockSpatial 1 x = x := by
  simp only [basicBlockSpatial, convOut]
  omega

theorem basicBlockSpatial_two (x : ℕ) (hx : 0 < x) : basicBlockSpatial 2 (2 * x) = x := by
  simp only [basicBlockSpatial, convOut]
  omega

theorem resLayerSpatial_one (x : ℕ) (hx : 0 < x) : resLayerSpatial 1 2 x = x := by
  simp only [resLayerSpatial, List.range_succ, List.range_zero, List.nil_append,
    List.cons_append, List.foldl_cons, List.foldl_nil, reduceIte,
    show (if (1 : ℕ) = 0 then 1 else 1) = 1 from rfl]
  rw [basicBlockSpatial_one x hx, basicBlockSpatial_one x hx]

theorem resLayerSpatial_two (x : ℕ) (hx : 0 < x) : resLayerSpatial 2 2 (2 * x) = x := by
  simp only [resLayerSpatial, List.range_succ, List.range_zero, List.nil_append,
    List.cons_append, List.foldl_cons, List.foldl_nil, reduceIte,
    show (if (1 : ℕ) = 0 then 2 else 1) = 1 from rfl]
  rw [basicBlockSpatial_two x hx, basicBlockSpatial_one x hx]

/-- C8: for input sizes divisible by 32, the fused feature map entering the
detection heads has spatial size `h / 4` in both detectors: `PoseResNet`'s
three deconvolution stages on the stride-32 backbone output, and
`MobileNetUp` on the reversed 4-level pyramid produced by the `MobileNetv2`
backbone (strides 4, 8, 16, 32). -/
theorem fused_spatial_stride4 (h : ℕ) (hdvd : 32 ∣ h) (hpos : 0 < h) :
    poseResNetFusedSpatial h = h / 4 ∧
    mnForwardSpatial (mobilenetv2Construct 1 8).stages h = [h / 4, h / 8, h / 16, h / 32] ∧
    mobileNetUpSpatial ((mnForwardSpatial (mobilenetv2Construct 1 8).stages h).reverse) =
      h / 4 := by
  obtain ⟨m, rfl⟩ := hdvd
  have hm : 0 < m := by omega
  have hback : mnForwardSpatial (mobilenetv2Construct 1 8).stages (32 * m) =
      [8 * m, 4 * m, 2 * m, m] := by
    rw [mobilenetv2Construct_eval]
    simp only [mnForwardSpatial, List.foldl_cons, List.foldl_nil, Layer.applySpatial,
      convOut, show Int.toNat 1 = 1 from rfl, show Int.toNat 2 = 2 from rfl,
      show Int.toNat 3 = 3 from rfl, Nat.div_one, List.cons.injEq, and_true,
      List.nil_eq, List.nil_append, List.cons_append, List.append_nil]
    omega
  refine ⟨?_, ?_, ?_⟩
  · simp only [poseResNetFusedSpatial]
    rw [show convOut (32 * m) 7 2 3 = 16 * m from by simp only [convOut]; omega,
      show convOut (16 * m) 3 2 1 = 8 * m from by simp only [convOut]; omega,
      resLayerSpatial_one (8 * m) (by omega),
      show (8 * m : ℕ) = 2 * (4 * m) from by ring,
      resLayerSpatial_two (4 * m) (by omega),
      show (4 * m : ℕ) = 2 * (2 * m) from by ring,
      resLayerSpatial_two (2 * m) (by omega),
      show (2 * m : ℕ) = 2 * m from rfl,
      resLayerSpatial_two m (by omega),
      show deconvOut m 4 2 1 0 = 2 * m from by simp only [deconvOut]; omega,
      show deconvOut (2 * m) 4 2 1 0 = 4 * m from by simp only [deconvOut]; omega,
      show deconvOut (4 * m) 4 2 1 0 = 8 * m from by simp only [deconvOut]; omega]
    omega
  · rw [hback]
    simp only [List.cons.injEq, and_true]
    refine ⟨by omega, by omega, by omega, by omega⟩
  · rw [hback]
    have hrev : (([8 * m, 4 * m, 2 * m, m] : List ℕ)).reverse = [m, 2 * m, 4 * m, 8 * m] := by
      simp
    rw [hrev]
    simp only [mobileNetUpSpatial, idaUpSpatial, deconvOut, convOut, List.headD,
      List.drop, List.foldl_cons, List.foldl_nil, Nat.div_one]
    omega


/-- C8 witness: both fused feature maps have spatial size 80 on a 320-pixel
input. -/
theorem fused_spatial_stride4_witness :
    poseResNetFusedSpatial 320 = 320 / 4 ∧
    mnForwardSpatial (mobilenetv2Construct 1 8).stages 320 =
      [320 / 4, 320 / 8, 320 / 16, 320 / 32] ∧
    mobileNetUpSpatial ((mnForwardSpatial (mobilenetv2Construct 1 8).stages 320).reverse) =
      320 / 4 :=
  fused_spatial_stride4 320 ⟨10, rfl⟩ (by norm_num)

end StCenterNet
